import Mathlib

set_option maxHeartbeats 1000000

/-!
Shallow embedding of the corpus-statistics engine:
`jupyter_notebooks/utils/text_stats.py`, `nlp_metrics.py` and
`parallel_nlp.py`.  Token sequences are `List String`; exact rational
arithmetic (`ℚ`) embeds the purely rational formulas, `ℝ` embeds the
formulas involving `log`, `sqrt` and powers.  Python's guarded early
returns become `if`-guards; every function is total, mirroring the
sentinel-return contract of the source.
-/

/-! ### Lexical diversity (text_stats.py, class TextStatistics) -/

/-- TTR = unique / total, 0.0 on empty input (`TextStatistics.type_token_ratio`). -/
def type_token_ratio (tokens : List String) : ℚ :=
  if tokens = [] then 0 else (tokens.toFinset.card : ℚ) / (tokens.length : ℚ)

/-- Guiraud R = unique / sqrt(total), 0.0 on empty input (`TextStatistics.root_ttr`). -/
noncomputable def root_ttr (tokens : List String) : ℝ :=
  if tokens = [] then 0
  else (tokens.toFinset.card : ℝ) / Real.sqrt (tokens.length : ℝ)

/-- Herdan C = log(unique)/log(total); 0.0 when N ≤ 1 or V ≤ 1 (`TextStatistics.log_ttr`). -/
noncomputable def log_ttr (tokens : List String) : ℝ :=
  if tokens.length ≤ 1 then 0
  else if tokens.toFinset.card ≤ 1 then 0
  else Real.log (tokens.toFinset.card : ℝ) / Real.log (tokens.length : ℝ)

/-- MATTR: average the TTR of every window of size `window_size`; plain TTR when the
text is shorter than the window (`TextStatistics.moving_average_ttr`). -/
def moving_average_ttr (tokens : List String) (window_size : ℕ) : ℚ :=
  if tokens.length < window_size then type_token_ratio tokens
  else
    let ttrs := (List.range (tokens.length - window_size + 1)).map
      (fun i => (((tokens.drop i).take window_size).toFinset.card : ℚ) / (window_size : ℚ))
    ttrs.sum / (ttrs.length : ℚ)

/-- Fraction of types occurring exactly once, divided by N; 0.0 on empty input
(`TextStatistics.hapax_legomena_ratio`). -/
def hapax_legomena_ratio (tokens : List String) : ℚ :=
  if tokens = [] then 0
  else ((tokens.toFinset.filter (fun t => tokens.count t = 1)).card : ℚ) / (tokens.length : ℚ)

/-- Multiset of per-type occurrence counts, as the Python `freq.values()` list of
`Counter(tokens)` (keys in first-occurrence order). -/
def freqValues (tokens : List String) : List ℕ :=
  tokens.dedup.map (fun t => tokens.count t)

/-- Yule's K as the source computes it: the frequency-of-frequencies table is
`Counter(freq.values())`, `M2 = Σ count·i²` over its items, `M1 = N`, and
`K = 10000·(M2−M1)/M1²`, with 0.0 for N < 2 (`TextStatistics.yules_k`). -/
def yules_k (tokens : List String) : ℚ :=
  if tokens.length < 2 then 0
  else
    let M1 : ℚ := (tokens.length : ℚ)
    let M2 : ℚ := ∑ i ∈ (freqValues tokens).toFinset,
      ((freqValues tokens).count i : ℚ) * (i : ℚ) ^ 2
    if M1 = 0 then 0 else 10000 * (M2 - M1) / M1 ^ 2

/-- Yule's K with M2 computed exactly as the spec sentence states it
("M2 = Σ(freq_i²·i²)", the number of types of each frequency being squared);
written out only to compare against the source's `yules_k`. -/
def yules_k_claimed (tokens : List String) : ℚ :=
  if tokens.length < 2 then 0
  else
    let M1 : ℚ := (tokens.length : ℚ)
    let M2 : ℚ := ∑ i ∈ (freqValues tokens).toFinset,
      ((freqValues tokens).count i : ℚ) ^ 2 * (i : ℚ) ^ 2
    if M1 = 0 then 0 else 10000 * (M2 - M1) / M1 ^ 2

/-- Simpson's D = 1 − Σ c(c−1) / (N(N−1)) over per-type counts, 0.0 for N < 2
(`TextStatistics.simpsons_d`). -/
def simpsons_d (tokens : List String) : ℚ :=
  if tokens.length < 2 then 0
  else 1 - (∑ t ∈ tokens.toFinset, (tokens.count t : ℚ) * ((tokens.count t : ℚ) - 1)) /
    ((tokens.length : ℚ) * ((tokens.length : ℚ) - 1))

/-! ### Entropy and information (nlp_metrics.py, class NLPMetrics) -/

/-- Shannon entropy H = −Σ p·log2 p over the type distribution, 0.0 on empty input
(`NLPMetrics.shannon_entropy`); the loop guard `p > 0` becomes `0 < count`. -/
noncomputable def shannon_entropy (tokens : List String) : ℝ :=
  if tokens = [] then 0
  else ∑ t ∈ tokens.toFinset,
    (if 0 < tokens.count t then
      -(((tokens.count t : ℝ) / (tokens.length : ℝ)) *
        Real.logb 2 ((tokens.count t : ℝ) / (tokens.length : ℝ)))
    else 0)

/-- Normalized entropy H / log2(V); 0.0 on empty input or when V ≤ 1
(`NLPMetrics.normalized_entropy`). -/
noncomputable def normalized_entropy (tokens : List String) : ℝ :=
  if tokens = [] then 0
  else if tokens.toFinset.card ≤ 1 then 0
  else shannon_entropy tokens / Real.logb 2 (tokens.toFinset.card : ℝ)

/-- Conditional bigram entropy H(w_i | w_{i−1}); 0.0 when N < 2
(`NLPMetrics.conditional_entropy_bigrams`). -/
noncomputable def conditional_entropy_bigrams (tokens : List String) : ℝ :=
  if tokens.length < 2 then 0
  else
    let bigrams := tokens.zip tokens.tail
    ∑ b ∈ bigrams.toFinset,
      (if (0 : ℝ) < (bigrams.count b : ℝ) / (tokens.dropLast.count b.1 : ℝ) then
        -(((bigrams.count b : ℝ) / (bigrams.length : ℝ)) *
          Real.logb 2 ((bigrams.count b : ℝ) / (tokens.dropLast.count b.1 : ℝ)))
      else 0)

/-- Unigram perplexity 2^H when H > 0, else 1.0 (`NLPMetrics.perplexity_unigram`). -/
noncomputable def perplexity_unigram (tokens : List String) : ℝ :=
  if 0 < shannon_entropy tokens then (2 : ℝ) ^ shannon_entropy tokens else 1

/-- Burstiness B = (σ−μ)/(σ+μ) of the inter-arrival gaps of `target`; 0.0 with fewer
than two occurrences or when σ+μ = 0 (`NLPMetrics.burstiness`). -/
noncomputable def burstiness (tokens : List String) (target : String) : ℝ :=
  let positions := (List.range tokens.length).filter (fun i => tokens[i]? = some target)
  if positions.length < 2 then 0
  else
    let gaps : List ℝ := (positions.zip positions.tail).map
      (fun p => (p.2 : ℝ) - (p.1 : ℝ))
    let mu := gaps.sum / (gaps.length : ℝ)
    let sigma := Real.sqrt ((gaps.map (fun g => (g - mu) ^ 2)).sum / (gaps.length : ℝ))
    if mu + sigma = 0 then 0 else (sigma - mu) / (sigma + mu)

/-- Mean burstiness over all types with frequency ≥ `min_freq`; 0.0 when none
qualifies (`NLPMetrics.average_burstiness`). -/
noncomputable def average_burstiness (tokens : List String) (min_freq : ℕ) : ℝ :=
  let frequent := tokens.toFinset.filter (fun w => min_freq ≤ tokens.count w)
  if frequent = ∅ then 0
  else (∑ w ∈ frequent, burstiness tokens w) / (frequent.card : ℝ)

/-- Adjusted Fisher-Pearson sample skewness with the source's guards
(`NLPMetrics._skewness`): 0.0 for fewer than 3 points or zero deviation. -/
noncomputable def skewness (data : List ℝ) : ℝ :=
  if data.length < 3 then 0
  else
    let n : ℝ := (data.length : ℝ)
    let mean := data.sum / n
    let std := Real.sqrt ((data.map (fun x => (x - mean) ^ 2)).sum / n)
    if std = 0 then 0
    else (n / ((n - 1) * (n - 2))) * (data.map (fun x => ((x - mean) / std) ^ 3)).sum

/-- Sample excess kurtosis with small-sample correction and the source's guards
(`NLPMetrics._kurtosis`): 0.0 for fewer than 4 points or zero deviation. -/
noncomputable def kurtosis (data : List ℝ) : ℝ :=
  if data.length < 4 then 0
  else
    let n : ℝ := (data.length : ℝ)
    let mean := data.sum / n
    let std := Real.sqrt ((data.map (fun x => (x - mean) ^ 2)).sum / n)
    if std = 0 then 0
    else
      (n * (n + 1) / ((n - 1) * (n - 2) * (n - 3))) *
        (data.map (fun x => ((x - mean) / std) ^ 4)).sum -
      3 * (n - 1) ^ 2 / ((n - 2) * (n - 3))

/-- Summary record of the per-type frequency distribution; the empty dict `{}` on
empty input (`NLPMetrics.word_frequency_distribution`). -/
noncomputable def word_frequency_distribution (tokens : List String) : List (String × ℝ) :=
  if tokens = [] then []
  else
    let freqs : List ℕ := freqValues tokens
    let fr : List ℝ := freqs.map (fun c => (c : ℝ))
    let n : ℝ := (freqs.length : ℝ)
    let mean := fr.sum / n
    let sorted := List.insertionSort (· ≤ ·) freqs
    let m := freqs.length
    let median : ℝ :=
      if m % 2 = 1 then (sorted.getD (m / 2) 0 : ℝ)
      else ((sorted.getD (m / 2 - 1) 0 : ℝ) + (sorted.getD (m / 2) 0 : ℝ)) / 2
    let std := Real.sqrt ((fr.map (fun x => (x - mean) ^ 2)).sum / n)
    [("mean_frequency", mean),
     ("median_frequency", median),
     ("max_frequency", (freqs.foldr max 0 : ℝ)),
     ("frequency_std", std),
     ("frequency_skewness", skewness fr),
     ("frequency_kurtosis", kurtosis fr),
     ("hapax_count", ((freqs.filter (fun f => f = 1)).length : ℝ)),
     ("dis_legomena_count", ((freqs.filter (fun f => f = 2)).length : ℝ)),
     ("high_freq_words", ((freqs.filter (fun f => 10 ≤ f)).length : ℝ))]

/-- Window of the PMI scan centred at position `i`: `tokens[max(0,i−w) : min(n,i+w+1)]`. -/
def pmi_window (tokens : List String) (window_size i : ℕ) : List String :=
  (tokens.drop (i - window_size)).take
    (min tokens.length (i + window_size + 1) - (i - window_size))

/-- PMI(word1, word2) over co-occurrence windows; 0.0 when a word is absent, when no
window exists, or when no co-occurrence was counted
(`NLPMetrics.pointwise_mutual_information`). -/
noncomputable def pointwise_mutual_information
    (tokens : List String) (word1 word2 : String) (window_size : ℕ) : ℝ :=
  if word1 ∉ tokens ∨ word2 ∉ tokens then 0
  else
    let n := tokens.length
    let p_x : ℝ := (tokens.count word1 : ℝ) / (n : ℝ)
    let p_y : ℝ := (tokens.count word2 : ℝ) / (n : ℝ)
    let cooc : ℤ := ∑ i ∈ Finset.range n,
      (if tokens[i]? = some word1 then
        ((pmi_window tokens window_size i).count word2 : ℤ) -
          (if word1 = word2 then 1 else 0)
      else 0)
    let total : ℤ := ∑ i ∈ Finset.range n,
      (if tokens[i]? = some word1 then ((pmi_window tokens window_size i).length : ℤ) - 1
      else 0)
    if total = 0 ∨ cooc = 0 then 0
    else
      let p_xy : ℝ := (cooc : ℝ) / (total : ℝ)
      if p_x * p_y = 0 then 0 else Real.logb 2 (p_xy / (p_x * p_y))

/-! ### Cross-corpus comparison (nlp_metrics.py and parallel_nlp.py) -/

/-- Jaccard similarity |A∩B|/|A∪B| of the two vocabularies, 0.0 when the union is
empty: the `jaccard_similarity` entry of `NLPMetrics.vocabulary_overlap` and the
pair value of `ParallelCorpusAnalyzer.compute_pairwise_similarity`. -/
def jaccard_similarity (tokens1 tokens2 : List String) : ℚ :=
  if tokens1.toFinset ∪ tokens2.toFinset = ∅ then 0
  else ((tokens1.toFinset ∩ tokens2.toFinset).card : ℚ) /
    ((tokens1.toFinset ∪ tokens2.toFinset).card : ℚ)

/-- Pairwise similarity matrix: diagonal forced to 1.0; a pair i < j is computed once
and the stored value is mirrored to (j, i)
(`ParallelCorpusAnalyzer.compute_pairwise_similarity`). -/
def compute_pairwise_similarity {n : ℕ} (corpora : Fin n → List String)
    (i j : Fin n) : ℚ :=
  if i = j then 1
  else if i < j then jaccard_similarity (corpora i) (corpora j)
  else jaccard_similarity (corpora j) (corpora i)

/-! ### Heaps' law sampling (text_stats.py) -/

/-- Number of sampling steps `ceil(n/step)`, as `range(0, n, step)` produces. -/
def heaps_num_samples (n step : ℕ) : ℕ := (n + step - 1) / step

/-- Sample boundaries `end_idx = min(i + step, n)` for `i = 0, step, 2·step, …`. -/
def heaps_sample_ends (n step : ℕ) : List ℕ :=
  (List.range (heaps_num_samples n step)).map (fun k => min ((k + 1) * step) n)

/-- Cumulative corpus sizes recorded by `_heaps_law_cpu_optimized`. -/
def heaps_corpus_sizes_cpu (tokens : List String) (step : ℕ) : List ℕ :=
  heaps_sample_ends tokens.length step

/-- Cumulative vocabulary sizes recorded by `_heaps_law_cpu_optimized`: after each
step the dict `vocab` holds exactly the distinct tokens of the processed prefix. -/
def heaps_vocab_sizes_cpu (tokens : List String) (step : ℕ) : List ℕ :=
  (heaps_sample_ends tokens.length step).map (fun e => (tokens.take e).toFinset.card)

/-- Cumulative corpus sizes recorded by `_heaps_law_gpu` (same append logic). -/
def heaps_corpus_sizes_gpu (tokens : List String) (step : ℕ) : List ℕ :=
  heaps_sample_ends tokens.length step

/-- Cumulative vocabulary sizes recorded by `_heaps_law_gpu`: tokens are first mapped
to indices through `token_to_idx` (an arbitrary enumeration `idx` of the distinct
tokens) and `seen_tokens` accumulates the index set of the processed prefix. -/
def heaps_vocab_sizes_gpu (idx : String → ℕ) (tokens : List String) (step : ℕ) : List ℕ :=
  (heaps_sample_ends tokens.length step).map
    (fun e => ((tokens.take e).map idx).toFinset.card)

/-- Corpus-size series returned by `heaps_law_analysis`: a single point when the text
is shorter than `step`, else the CPU sampling series. -/
def heaps_law_corpus_sizes (tokens : List String) (step : ℕ) : List ℕ :=
  if tokens.length < step then [tokens.length]
  else heaps_corpus_sizes_cpu tokens step

/-- Vocabulary-size series returned by `heaps_law_analysis`. -/
def heaps_law_vocab_sizes (tokens : List String) (step : ℕ) : List ℕ :=
  if tokens.length < step then [tokens.toFinset.card]
  else heaps_vocab_sizes_cpu tokens step

/-! ### TF-IDF builder (parallel_nlp.py, GPUTextAnalyzer, NumPy reference path) -/

/-- Vocabulary of a document collection: the union of all distinct tokens
(`compute_tfidf_gpu` builds `all_tokens` by set union, then sorts for order). -/
def tfidf_vocab (docs : List (List String)) : Finset String :=
  docs.foldr (fun d acc => d.toFinset ∪ acc) ∅

/-- Document frequency of a term: number of documents whose count is positive,
`(tf > 0).sum(axis=0)` in the source. -/
def doc_freq (docs : List (List String)) (t : String) : ℕ :=
  (docs.filter (fun d => 0 < d.count t)).length

/-- Smoothed inverse document frequency `log(n_docs / (doc_freq + 1)) + 1`. -/
noncomputable def idf (docs : List (List String)) (t : String) : ℝ :=
  Real.log ((docs.length : ℝ) / ((doc_freq docs t : ℝ) + 1)) + 1

/-- TF-IDF entry before row normalization: `tf_ij · idf_j`. -/
noncomputable def tfidf_entry (docs : List (List String)) (d : List String)
    (t : String) : ℝ :=
  (d.count t : ℝ) * idf docs t

/-- L2 norm of a document's TF-IDF row over the vocabulary columns. -/
noncomputable def tfidf_row_norm (docs : List (List String)) (d : List String) : ℝ :=
  Real.sqrt (∑ t ∈ tfidf_vocab docs, (tfidf_entry docs d t) ^ 2)

/-- Row-normalized TF-IDF entry: the row is divided by its L2 norm plus 1e-8. -/
noncomputable def tfidf_normalized (docs : List (List String)) (d : List String)
    (t : String) : ℝ :=
  tfidf_entry docs d t / (tfidf_row_norm docs d + 1 / 10 ^ 8)

/-! ### Batch aggregation (parallel_nlp.py, ParallelCorpusAnalyzer) -/

/-- Fixed record of summary statistics computed per corpus
(`ParallelCorpusAnalyzer._compute_corpus_stats`). -/
structure CorpusRecord where
  n_tokens : ℝ
  vocab_size : ℝ
  ttr : ℝ
  root_ttr : ℝ
  log_ttr : ℝ
  hapax_ratio : ℝ
  yules_k : ℝ
  simpsons_d : ℝ
  entropy : ℝ
  norm_entropy : ℝ
  perplexity : ℝ
  avg_word_len : ℝ

/-- All-zero record substituted for a failed corpus (`ParallelCorpusAnalyzer._empty_result`). -/
def empty_result : CorpusRecord :=
  ⟨0, 0, 0, 0, 0, 0, 0, 0, 0, 0, 0, 0⟩

/-- Summary statistics of one corpus, with the inline formulas and guards of
`ParallelCorpusAnalyzer._compute_corpus_stats`. -/
noncomputable def compute_corpus_stats (tokens : List String) : CorpusRecord :=
  if tokens.length = 0 then empty_result
  else
    let n : ℝ := (tokens.length : ℝ)
    let V : ℝ := (tokens.toFinset.card : ℝ)
    let hapax : ℝ := ((tokens.toFinset.filter (fun t => tokens.count t = 1)).card : ℝ)
    let entropy : ℝ := ∑ t ∈ tokens.toFinset,
      (if 0 < tokens.count t then
        -(((tokens.count t : ℝ) / n) * Real.logb 2 ((tokens.count t : ℝ) / n))
      else 0)
    let max_entropy : ℝ := if 1 < tokens.toFinset.card then Real.logb 2 V else 1
    let m2 : ℝ := ∑ t ∈ tokens.toFinset, (tokens.count t : ℝ) ^ 2
    { n_tokens := n
    , vocab_size := V
    , ttr := V / n
    , root_ttr := if 0 < tokens.length then V / Real.sqrt n else 0
    , log_ttr := if 1 < tokens.length ∧ 1 < tokens.toFinset.card then
        Real.log V / Real.log n else 0
    , hapax_ratio := hapax / n
    , yules_k := if 0 < tokens.length then 10000 * (m2 - n) / (n * n) else 0
    , simpsons_d := if 1 < tokens.length then
        1 - (∑ t ∈ tokens.toFinset, (tokens.count t : ℝ) * ((tokens.count t : ℝ) - 1)) /
          (n * (n - 1))
      else 0
    , entropy := entropy
    , norm_entropy := if 0 < max_entropy then entropy / max_entropy else 0
    , perplexity := if 0 < entropy then (2 : ℝ) ^ entropy else 1
    , avg_word_len := (tokens.map (fun t => (t.length : ℝ))).sum / n }

/-- Batch aggregation (`ParallelCorpusAnalyzer.analyze_corpora_parallel`): one row per
input corpus; the per-corpus computation (which may fail, modelled as `Except`) is
tried independently for each corpus, a failure being replaced by `empty_result`.
The thread-pool orchestration is glue outside the statistics core (spec section 5);
both the threaded path and the sequential fallback implement this per-item
try/except contract. -/
def analyze_corpora_parallel (compute : List String → Except String CorpusRecord)
    (corpora : List (String × List String)) : List (String × CorpusRecord) :=
  corpora.map (fun p =>
    (p.1, match compute p.2 with
      | Except.ok r => r
      | Except.error _ => empty_result))

/-! ### Helper lemmas -/

/-- Deduplicating a list does not change its finset of elements. -/
theorem list_toFinset_dedup (l : List String) : l.dedup.toFinset = l.toFinset := by
  ext x
  simp [List.mem_dedup]

/-- M2 of Yule's K, summed over the frequency-of-frequencies table, equals the sum
of squared per-type counts. -/
theorem yules_M2_eq (tokens : List String) :
    (∑ i ∈ (freqValues tokens).toFinset, ((freqValues tokens).count i : ℚ) * (i : ℚ) ^ 2)
      = ∑ t ∈ tokens.toFinset, (tokens.count t : ℚ) ^ 2 := by
  have h1 : ∑ i ∈ (freqValues tokens).toFinset,
      ((freqValues tokens).count i) • ((i : ℚ) ^ 2)
      = (List.map (fun i : ℕ => (i : ℚ) ^ 2) (freqValues tokens)).sum :=
    (Finset.sum_list_map_count (freqValues tokens) (fun i : ℕ => (i : ℚ) ^ 2)).symm
  simp only [nsmul_eq_mul] at h1
  rw [h1]
  unfold freqValues
  rw [List.map_map]
  rw [← List.sum_toFinset _ tokens.nodup_dedup, list_toFinset_dedup]
  rfl

/-- Sum of squares is at most the square of the sum for natural-valued weights. -/
theorem sum_sq_le_sq_sum (s : Finset String) (f : String → ℕ) :
    ∑ t ∈ s, f t ^ 2 ≤ (∑ t ∈ s, f t) ^ 2 := by
  have h : ∀ t ∈ s, f t ^ 2 ≤ f t * ∑ u ∈ s, f u := by
    intro t ht
    rw [pow_two]
    exact Nat.mul_le_mul le_rfl (Finset.single_le_sum (fun i _ => Nat.zero_le (f i)) ht)
  calc ∑ t ∈ s, f t ^ 2 ≤ ∑ t ∈ s, f t * ∑ u ∈ s, f u := Finset.sum_le_sum h
    _ = (∑ t ∈ s, f t) ^ 2 := by rw [← Finset.sum_mul, pow_two]

/-! ### Claim C1 -/

/-- C1 (amended): for N ≥ 2, `yules_k` returns 10000·(M2 − M1)/M1² with M1 = N and
M2 = Σ freq_i·i² over the frequency-of-frequencies table — equivalently the sum of
the squared per-type counts, as stated here — and 0.0 for N < 2.  The spec's
"freq_i²·i²" (squaring the number of types of each frequency) is not what the code
computes. -/
theorem yules_k_formula (tokens : List String) :
    (2 ≤ tokens.length →
      yules_k tokens =
        10000 * ((∑ t ∈ tokens.toFinset, (tokens.count t : ℚ) ^ 2) - (tokens.length : ℚ)) /
          (tokens.length : ℚ) ^ 2) ∧
    (tokens.length < 2 → yules_k tokens = 0) := by
  constructor
  · intro h
    have hne : ¬ tokens.length < 2 := not_lt.mpr h
    have hM1 : ((tokens.length : ℚ)) ≠ 0 := by
      have : tokens.length ≠ 0 := by omega
      exact_mod_cast this
    simp only [yules_k]
    rw [if_neg hne, if_neg hM1, yules_M2_eq]
  · intro h
    simp only [yules_k]
    rw [if_pos h]

/-- Witness for C1 at the concrete inputs ["a","a"] (N = 2) and ["a"] (N < 2). -/
theorem yules_k_formula_witness :
    yules_k ["a", "a"] =
      10000 * ((∑ t ∈ (["a", "a"] : List String).toFinset,
          ((["a", "a"] : List String).count t : ℚ) ^ 2) -
        ((["a", "a"] : List String).length : ℚ)) /
        ((["a", "a"] : List String).length : ℚ) ^ 2 ∧
    yules_k ["a"] = 0 :=
  ⟨(yules_k_formula ["a", "a"]).1 (by decide), (yules_k_formula ["a"]).2 (by decide)⟩

/-- Counterexample for C1 as frozen: with tokens ["a","b"] the spec's formula
(freq_i squared) yields 5000 while the source's `yules_k` yields 0. -/
theorem yules_k_claimed_counterexample :
    yules_k_claimed ["a", "b"] ≠ yules_k ["a", "b"] := by
  have hfv : freqValues ["a", "b"] = [1, 1] := by decide
  have hlen : (["a", "b"] : List String).length = 2 := by decide
  have htf : ([1, 1] : List ℕ).toFinset = {1} := by decide
  have hcnt : ([1, 1] : List ℕ).count 1 = 2 := by decide
  simp only [yules_k, yules_k_claimed, hfv, hlen, htf, hcnt, Finset.sum_singleton]
  norm_num

/-! ### Claim C10 -/

/-- C10: for N ≥ 2, Simpson's D lies in [0, 1]: Σ c(c−1) over per-type counts never
exceeds N(N−1). -/
theorem simpsons_d_unit_interval (tokens : List String) (h : 2 ≤ tokens.length) :
    0 ≤ simpsons_d tokens ∧ simpsons_d tokens ≤ 1 := by
  have hne : ¬ tokens.length < 2 := not_lt.mpr h
  have h2 : (2 : ℚ) ≤ (tokens.length : ℚ) := by exact_mod_cast h
  have hcount : ∑ t ∈ tokens.toFinset, (tokens.count t : ℚ) = (tokens.length : ℚ) := by
    exact_mod_cast List.sum_toFinset_count_eq_length tokens
  have hsum_sq : ∑ t ∈ tokens.toFinset, (tokens.count t : ℚ) ^ 2
      ≤ (tokens.length : ℚ) ^ 2 := by
    have hnat : ∑ t ∈ tokens.toFinset, (tokens.count t) ^ 2 ≤ tokens.length ^ 2 := by
      calc ∑ t ∈ tokens.toFinset, (tokens.count t) ^ 2
          ≤ (∑ t ∈ tokens.toFinset, tokens.count t) ^ 2 :=
            sum_sq_le_sq_sum tokens.toFinset (fun t => tokens.count t)
        _ = tokens.length ^ 2 := by rw [List.sum_toFinset_count_eq_length]
    exact_mod_cast hnat
  have hnum_eq : (∑ t ∈ tokens.toFinset, (tokens.count t : ℚ) * ((tokens.count t : ℚ) - 1))
      = (∑ t ∈ tokens.toFinset, (tokens.count t : ℚ) ^ 2) - (tokens.length : ℚ) := by
    rw [← hcount, ← Finset.sum_sub_distrib]
    apply Finset.sum_congr rfl
    intro t _
    ring
  have hnum_nonneg :
      0 ≤ ∑ t ∈ tokens.toFinset, (tokens.count t : ℚ) * ((tokens.count t : ℚ) - 1) := by
    apply Finset.sum_nonneg
    intro t ht
    have h1 : 1 ≤ tokens.count t := List.count_pos_iff.mpr (List.mem_toFinset.mp ht)
    have hc : (1 : ℚ) ≤ (tokens.count t : ℚ) := by exact_mod_cast h1
    nlinarith
  have hnum_le :
      ∑ t ∈ tokens.toFinset, (tokens.count t : ℚ) * ((tokens.count t : ℚ) - 1)
        ≤ (tokens.length : ℚ) * ((tokens.length : ℚ) - 1) := by
    rw [hnum_eq]
    nlinarith
  have hden : (0 : ℚ) < (tokens.length : ℚ) * ((tokens.length : ℚ) - 1) := by nlinarith
  constructor
  · have hr : (∑ t ∈ tokens.toFinset, (tokens.count t : ℚ) * ((tokens.count t : ℚ) - 1)) /
        ((tokens.length : ℚ) * ((tokens.length : ℚ) - 1)) ≤ 1 :=
      (div_le_one hden).mpr hnum_le
    simp only [simpsons_d]
    rw [if_neg hne]
    linarith
  · have hr : 0 ≤ (∑ t ∈ tokens.toFinset, (tokens.count t : ℚ) * ((tokens.count t : ℚ) - 1)) /
        ((tokens.length : ℚ) * ((tokens.length : ℚ) - 1)) :=
      div_nonneg hnum_nonneg (le_of_lt hden)
    simp only [simpsons_d]
    rw [if_neg hne]
    linarith

/-- Witness for C10 at the concrete input ["a","b"]. -/
theorem simpsons_d_unit_interval_witness :
    0 ≤ simpsons_d ["a", "b"] ∧ simpsons_d ["a", "b"] ≤ 1 :=
  simpsons_d_unit_interval ["a", "b"] (by decide)

/-! ### Claim C2 -/

/-- C2 (amended): on the empty token sequence every diversity/entropy function
returns its documented degenerate sentinel and never fails: 0.0 for all of them
except `perplexity_unigram`, whose documented sentinel is 1.0 (2^H with H = 0), and
`word_frequency_distribution`, whose documented sentinel is the empty record; in
this embedding every function is total, so no exception and no NaN can occur. -/
theorem empty_input_sentinels :
    type_token_ratio [] = 0 ∧ root_ttr [] = 0 ∧ log_ttr [] = 0 ∧
    moving_average_ttr [] 100 = 0 ∧ hapax_legomena_ratio [] = 0 ∧
    yules_k [] = 0 ∧ simpsons_d [] = 0 ∧ shannon_entropy [] = 0 ∧
    normalized_entropy [] = 0 ∧ conditional_entropy_bigrams [] = 0 ∧
    perplexity_unigram [] = 1 ∧
    (∀ w : String, burstiness [] w = 0) ∧
    (∀ m : ℕ, average_burstiness [] m = 0) ∧
    word_frequency_distribution [] = [] ∧
    (∀ (w1 w2 : String) (ws : ℕ), pointwise_mutual_information [] w1 w2 ws = 0) := by
  refine ⟨?_, ?_, ?_, ?_, ?_, ?_, ?_, ?_, ?_, ?_, ?_, ?_, ?_, ?_, ?_⟩
  · simp [type_token_ratio]
  · simp [root_ttr]
  · simp [log_ttr]
  · simp [moving_average_ttr, type_token_ratio]
  · simp [hapax_legomena_ratio]
  · simp [yules_k]
  · simp [simpsons_d]
  · simp [shannon_entropy]
  · simp [normalized_entropy]
  · simp [conditional_entropy_bigrams]
  · simp [perplexity_unigram, shannon_entropy]
  · intro w
    simp [burstiness]
  · intro m
    simp [average_burstiness]
  · simp [word_frequency_distribution]
  · intro w1 w2 ws
    simp [pointwise_mutual_information]

/-- Counterexample for C2 as frozen: `perplexity_unigram` on the empty sequence does
not return 0.0 (it returns its documented floor 1.0). -/
theorem perplexity_empty_counterexample : perplexity_unigram [] ≠ 0 := by
  have h : perplexity_unigram [] = 1 := by simp [perplexity_unigram, shannon_entropy]
  rw [h]
  norm_num

/-! ### Claim C4 -/

/-- C4: the Jaccard value of `vocabulary_overlap` is symmetric in its two arguments,
and the `compute_pairwise_similarity` matrix is exactly symmetric with every
diagonal entry forced to 1.0 (each unordered pair computed once and mirrored). -/
theorem jaccard_pairwise_symmetric :
    (∀ A B : List String, jaccard_similarity A B = jaccard_similarity B A) ∧
    (∀ (n : ℕ) (corpora : Fin n → List String) (i j : Fin n),
      compute_pairwise_similarity corpora i j = compute_pairwise_similarity corpora j i ∧
      compute_pairwise_similarity corpora i i = 1) := by
  have hsymm : ∀ A B : List String, jaccard_similarity A B = jaccard_similarity B A := by
    intro A B
    unfold jaccard_similarity
    rw [Finset.union_comm, Finset.inter_comm]
  refine ⟨hsymm, ?_⟩
  intro n corpora i j
  refine ⟨?_, ?_⟩
  · unfold compute_pairwise_similarity
    rcases lt_trichotomy i j with h | h | h
    · rw [if_neg (ne_of_lt h), if_pos h, if_neg (ne_of_gt h),
        if_neg (not_lt.mpr (le_of_lt h))]
    · rw [h]
    · rw [if_neg (ne_of_gt h), if_neg (not_lt.mpr (le_of_lt h)),
        if_neg (ne_of_lt h), if_pos h]
  · unfold compute_pairwise_similarity
    rw [if_pos rfl]

/-! ### Claim C5 -/

/-- C5: the batch aggregation returns exactly one row per input corpus; a corpus
whose computation fails contributes the all-zero `empty_result` row, and every
corpus whose computation succeeds contributes its computed record — independently
of any other corpus failing. -/
theorem analyze_corpora_rows
    (compute : List String → Except String CorpusRecord)
    (corpora : List (String × List String)) :
    (analyze_corpora_parallel compute corpora).length = corpora.length ∧
    ∀ p ∈ corpora,
      (∀ e, compute p.2 = Except.error e →
        (p.1, empty_result) ∈ analyze_corpora_parallel compute corpora) ∧
      (∀ r, compute p.2 = Except.ok r →
        (p.1, r) ∈ analyze_corpora_parallel compute corpora) := by
  constructor
  · exact List.length_map _ _
  · intro p hp
    constructor
    · intro e he
      apply List.mem_map.mpr
      refine ⟨p, hp, ?_⟩
      rw [he]
    · intro r hr
      apply List.mem_map.mpr
      refine ⟨p, hp, ?_⟩
      rw [hr]

/-- Witness for C5: a two-corpus batch in which one corpus fails; the failed corpus
still yields its empty row and the good corpus its computed row. -/
theorem analyze_corpora_rows_witness :
    (analyze_corpora_parallel
        (fun t => if t = [] then Except.error "boom" else Except.ok empty_result)
        [("good", ["x"]), ("bad", [])]).length =
      ([("good", ["x"]), ("bad", [])] : List (String × List String)).length ∧
    ("bad", empty_result) ∈ analyze_corpora_parallel
        (fun t => if t = [] then Except.error "boom" else Except.ok empty_result)
        [("good", ["x"]), ("bad", [])] ∧
    ("good", empty_result) ∈ analyze_corpora_parallel
        (fun t => if t = [] then Except.error "boom" else Except.ok empty_result)
        [("good", ["x"]), ("bad", [])] := by
  refine ⟨(analyze_corpora_rows _ _).1, ?_, ?_⟩
  · exact ((analyze_corpora_rows _ _).2 ("bad", []) (by simp)).1 "boom" rfl
  · exact ((analyze_corpora_rows _ _).2 ("good", ["x"]) (by simp)).2 empty_result rfl

/-! ### Claim C3 -/

/-- Taking a longer prefix can only enlarge the finset of seen tokens. -/
theorem toFinset_take_subset_of_le (l : List String) {a b : ℕ} (h : a ≤ b) :
    (l.take a).toFinset ⊆ (l.take b).toFinset := by
  intro x hx
  rw [List.mem_toFinset] at hx ⊢
  have h2 : l.take a = (l.take b).take a := by
    rw [List.take_take, min_eq_left h]
  rw [h2] at hx
  exact List.take_subset a (l.take b) hx

/-- Sample boundaries of the Heaps scan are non-decreasing. -/
theorem heaps_sample_ends_sorted (n step : ℕ) :
    List.Sorted (· ≤ ·) (heaps_sample_ends n step) := by
  unfold heaps_sample_ends
  exact List.Pairwise.map _
    (fun a b hab => min_le_min (Nat.mul_le_mul (by omega) le_rfl) le_rfl)
    (List.pairwise_lt_range (heaps_num_samples n step))

/-- C3: both series returned by `heaps_law_analysis` are non-decreasing, and at every
index the vocabulary size is at most the corpus size. -/
theorem heaps_series_monotone (tokens : List String) (step : ℕ) (hstep : 0 < step) :
    List.Sorted (· ≤ ·) (heaps_law_corpus_sizes tokens step) ∧
    List.Sorted (· ≤ ·) (heaps_law_vocab_sizes tokens step) ∧
    List.Forall₂ (· ≤ ·) (heaps_law_vocab_sizes tokens step)
      (heaps_law_corpus_sizes tokens step) := by
  unfold heaps_law_corpus_sizes heaps_law_vocab_sizes
  by_cases h : tokens.length < step
  · rw [if_pos h, if_pos h]
    refine ⟨List.sorted_singleton _, List.sorted_singleton _, ?_⟩
    exact List.Forall₂.cons (List.toFinset_card_le tokens) List.Forall₂.nil
  · rw [if_neg h, if_neg h]
    unfold heaps_vocab_sizes_cpu heaps_corpus_sizes_cpu
    refine ⟨heaps_sample_ends_sorted _ _, ?_, ?_⟩
    · apply List.Pairwise.map
      · intro a b hab
        exact Finset.card_le_card (toFinset_take_subset_of_le tokens hab)
      · exact heaps_sample_ends_sorted tokens.length step
    · rw [List.forall₂_map_left_iff, List.forall₂_same]
      intro e _
      calc (tokens.take e).toFinset.card ≤ (tokens.take e).length :=
            List.toFinset_card_le (tokens.take e)
        _ ≤ e := by rw [List.length_take]; omega

/-- Witness for C3 at the concrete input ["a","b","a"] with step 2. -/
theorem heaps_series_monotone_witness :
    List.Sorted (· ≤ ·) (heaps_law_corpus_sizes ["a", "b", "a"] 2) ∧
    List.Sorted (· ≤ ·) (heaps_law_vocab_sizes ["a", "b", "a"] 2) ∧
    List.Forall₂ (· ≤ ·) (heaps_law_vocab_sizes ["a", "b", "a"] 2)
      (heaps_law_corpus_sizes ["a", "b", "a"] 2) :=
  heaps_series_monotone ["a", "b", "a"] 2 (by decide)

/-! ### Claim C9 -/

/-- Mapping a list before `toFinset` is the image of its `toFinset`. -/
theorem map_toFinset_image (l : List String) (f : String → ℕ) :
    (l.map f).toFinset = l.toFinset.image f := by
  ext x
  simp

/-- C9: for a token sequence at least `step` long, the CPU path and the GPU path of
`heaps_law_analysis` record identical corpus-size and vocabulary-size series, for
any enumeration `idx` of the distinct tokens (the GPU path maps tokens to indices
through an injective `token_to_idx` before accumulating its seen-set); the fitted
K and β are excluded. -/
theorem heaps_cpu_gpu_same_series (tokens : List String) (step : ℕ) (idx : String → ℕ)
    (hstep : 0 < step) (hlen : step ≤ tokens.length)
    (hinj : Set.InjOn idx {t | t ∈ tokens}) :
    heaps_corpus_sizes_gpu tokens step = heaps_corpus_sizes_cpu tokens step ∧
    heaps_vocab_sizes_gpu idx tokens step = heaps_vocab_sizes_cpu tokens step := by
  refine ⟨rfl, ?_⟩
  unfold heaps_vocab_sizes_gpu heaps_vocab_sizes_cpu
  apply List.map_congr_left
  intro e _
  rw [map_toFinset_image]
  apply Finset.card_image_of_injOn
  apply hinj.mono
  intro x hx
  have hx2 : x ∈ tokens.take e := by
    have := Finset.mem_coe.mp hx
    exact List.mem_toFinset.mp this
  exact List.take_subset e tokens hx2

/-- Witness for C9 at the concrete input ["a","b","a"] with step 2 and an explicit
injective token enumeration. -/
theorem heaps_cpu_gpu_same_series_witness :
    heaps_corpus_sizes_gpu ["a", "b", "a"] 2 = heaps_corpus_sizes_cpu ["a", "b", "a"] 2 ∧
    heaps_vocab_sizes_gpu (fun t => if t = "a" then 0 else 1) ["a", "b", "a"] 2 =
      heaps_vocab_sizes_cpu ["a", "b", "a"] 2 :=
  heaps_cpu_gpu_same_series ["a", "b", "a"] 2 (fun t => if t = "a" then 0 else 1)
    (by decide) (by decide)
    (by
      intro a ha b hb hab
      simp only [Set.mem_setOf_eq, List.mem_cons, List.not_mem_nil, or_false] at ha hb
      rcases ha with rfl | rfl | rfl <;> rcases hb with rfl | rfl | rfl <;>
        revert hab <;> decide)

/-! ### Claim C6 -/

/-- On a non-empty sequence the entropy guard `0 < count` always holds, so the sum
loses its inner `if`. -/
theorem shannon_entropy_eq_sum (tokens : List String) (h : tokens ≠ []) :
    shannon_entropy tokens =
      ∑ t ∈ tokens.toFinset,
        -(((tokens.count t : ℝ) / (tokens.length : ℝ)) *
          Real.logb 2 ((tokens.count t : ℝ) / (tokens.length : ℝ))) := by
  unfold shannon_entropy
  rw [if_neg h]
  apply Finset.sum_congr rfl
  intro t ht
  rw [if_pos (List.count_pos_iff.mpr (List.mem_toFinset.mp ht))]

/-- Every summand of the entropy is non-negative: the relative frequency p lies in
(0, 1], so p·log2 p ≤ 0. -/
theorem entropy_term_nonneg (tokens : List String) (t : String)
    (ht : t ∈ tokens.toFinset) :
    0 ≤ -(((tokens.count t : ℝ) / (tokens.length : ℝ)) *
      Real.logb 2 ((tokens.count t : ℝ) / (tokens.length : ℝ))) := by
  have hmem := List.mem_toFinset.mp ht
  have hlen : 0 < tokens.length := List.length_pos.mpr (List.ne_nil_of_mem hmem)
  have hp0 : 0 ≤ (tokens.count t : ℝ) / (tokens.length : ℝ) :=
    div_nonneg (Nat.cast_nonneg _) (Nat.cast_nonneg _)
  have hp1 : (tokens.count t : ℝ) / (tokens.length : ℝ) ≤ 1 := by
    rw [div_le_one (by exact_mod_cast hlen)]
    exact_mod_cast List.count_le_length t tokens
  have hlog : Real.logb 2 ((tokens.count t : ℝ) / (tokens.length : ℝ)) ≤ 0 :=
    Real.logb_nonpos one_lt_two hp0 hp1
  nlinarith

/-- Shannon entropy is non-negative on every input. -/
theorem shannon_entropy_nonneg (tokens : List String) : 0 ≤ shannon_entropy tokens := by
  by_cases h : tokens = []
  · simp [shannon_entropy, h]
  · rw [shannon_entropy_eq_sum tokens h]
    exact Finset.sum_nonneg (fun t ht => entropy_term_nonneg tokens t ht)

/-- On a non-empty sequence, entropy vanishes exactly when there is a single type. -/
theorem shannon_entropy_eq_zero_iff (tokens : List String) (h : tokens ≠ []) :
    shannon_entropy tokens = 0 ↔ tokens.toFinset.card = 1 := by
  have hlen : 0 < tokens.length := List.length_pos.mpr h
  have hlenR : (0 : ℝ) < (tokens.length : ℝ) := by exact_mod_cast hlen
  rw [shannon_entropy_eq_sum tokens h,
    Finset.sum_eq_zero_iff_of_nonneg (fun t ht => entropy_term_nonneg tokens t ht)]
  constructor
  · intro hall
    have hcnt : ∀ t ∈ tokens.toFinset, tokens.count t = tokens.length := by
      intro t ht
      have hterm := hall t ht
      have hppos : 0 < (tokens.count t : ℝ) / (tokens.length : ℝ) := by
        apply div_pos _ hlenR
        exact_mod_cast List.count_pos_iff.mpr (List.mem_toFinset.mp ht)
      have hmul : ((tokens.count t : ℝ) / (tokens.length : ℝ)) *
          Real.logb 2 ((tokens.count t : ℝ) / (tokens.length : ℝ)) = 0 :=
        neg_eq_zero.mp hterm
      rcases mul_eq_zero.mp hmul with hp | hl
      · exact absurd hp (ne_of_gt hppos)
      · have hp1 : (tokens.count t : ℝ) / (tokens.length : ℝ) = 1 := by
          rcases Real.logb_eq_zero.mp hl with h2 | h2 | h2 | h2 | h2 | h2
          · norm_num at h2
          · norm_num at h2
          · norm_num at h2
          · exact absurd h2 (ne_of_gt hppos)
          · exact h2
          · exfalso
            rw [h2] at hppos
            norm_num at hppos
        have heq : (tokens.count t : ℝ) = (tokens.length : ℝ) := by
          field_simp at hp1
          exact_mod_cast hp1
        exact_mod_cast heq
    by_contra hcard
    have hne : tokens.toFinset.Nonempty := (List.toFinset_nonempty_iff tokens).mpr h
    have h1le : 1 ≤ tokens.toFinset.card := Finset.Nonempty.card_pos hne
    have h2le : 1 < tokens.toFinset.card := by omega
    obtain ⟨a, ha, b, hb, hab⟩ := Finset.one_lt_card.mp h2le
    have hsum := List.sum_toFinset_count_eq_length tokens
    have hadd : tokens.count a + tokens.count b ≤
        ∑ t ∈ tokens.toFinset, tokens.count t :=
      Finset.add_le_sum (fun i _ => Nat.zero_le (tokens.count i)) ha hb hab
    rw [hsum, hcnt a ha, hcnt b hb] at hadd
    omega
  · intro hcard
    obtain ⟨a, haeq⟩ := Finset.card_eq_one.mp hcard
    intro t ht
    have hta : t = a := Finset.mem_singleton.mp (haeq ▸ ht)
    have hcount : tokens.count a = tokens.length := by
      have hsum := List.sum_toFinset_count_eq_length tokens
      rw [haeq, Finset.sum_singleton] at hsum
      exact hsum
    subst hta
    rw [hcount, div_self (ne_of_gt hlenR), Real.logb_one]
    norm_num

/-- C6: Shannon entropy is non-negative, and it is zero exactly when all tokens are
identical or the sequence has at most one token. -/
theorem shannon_entropy_nonneg_zero_iff (tokens : List String) :
    0 ≤ shannon_entropy tokens ∧
    (shannon_entropy tokens = 0 ↔
      (∀ a ∈ tokens, ∀ b ∈ tokens, a = b) ∨ tokens.length ≤ 1) := by
  refine ⟨shannon_entropy_nonneg tokens, ?_⟩
  by_cases h : tokens = []
  · subst h
    simp [shannon_entropy]
  · rw [shannon_entropy_eq_zero_iff tokens h]
    constructor
    · intro hcard
      left
      intro a ha b hb
      exact Finset.card_le_one.mp (le_of_eq hcard) a (List.mem_toFinset.mpr ha) b
        (List.mem_toFinset.mpr hb)
    · intro hor
      have hcardle : tokens.toFinset.card ≤ 1 := by
        rcases hor with hall | hlen
        · apply Finset.card_le_one.mpr
          intro a ha b hb
          exact hall a (List.mem_toFinset.mp ha) b (List.mem_toFinset.mp hb)
        · calc tokens.toFinset.card ≤ tokens.length := List.toFinset_card_le tokens
            _ ≤ 1 := hlen
      have hpos : 0 < tokens.toFinset.card :=
        Finset.Nonempty.card_pos ((List.toFinset_nonempty_iff tokens).mpr h)
      omega

/-! ### Claim C7 -/

/-- Relative frequencies over the distinct types sum to one. -/
theorem sum_p_eq_one (tokens : List String) (h : tokens ≠ []) :
    ∑ t ∈ tokens.toFinset, (tokens.count t : ℝ) / (tokens.length : ℝ) = 1 := by
  have hlenR : (0 : ℝ) < (tokens.length : ℝ) := by
    exact_mod_cast List.length_pos.mpr h
  have hsum : ∑ t ∈ tokens.toFinset, (tokens.count t : ℝ) = (tokens.length : ℝ) := by
    exact_mod_cast List.sum_toFinset_count_eq_length tokens
  rw [← Finset.sum_div, hsum, div_self (ne_of_gt hlenR)]

/-- Gibbs bound via Jensen's inequality for the concave logarithm: the entropy of a
distribution over V types is at most log2 V. -/
theorem entropy_le_logb_card (tokens : List String) (h : 1 < tokens.toFinset.card) :
    shannon_entropy tokens ≤ Real.logb 2 (tokens.toFinset.card : ℝ) := by
  have hne : tokens ≠ [] := by
    intro heq
    rw [heq] at h
    simp at h
  have hlen : (0 : ℝ) < (tokens.length : ℝ) := by
    exact_mod_cast List.length_pos.mpr hne
  have hppos : ∀ t ∈ tokens.toFinset,
      0 < (tokens.count t : ℝ) / (tokens.length : ℝ) := by
    intro t ht
    apply div_pos _ hlen
    exact_mod_cast List.count_pos_iff.mpr (List.mem_toFinset.mp ht)
  have hpsum := sum_p_eq_one tokens hne
  rw [shannon_entropy_eq_sum tokens hne]
  have hstep1 : ∀ t ∈ tokens.toFinset,
      -(((tokens.count t : ℝ) / (tokens.length : ℝ)) *
          Real.logb 2 ((tokens.count t : ℝ) / (tokens.length : ℝ)))
        = ((tokens.count t : ℝ) / (tokens.length : ℝ)) *
          Real.logb 2 ((tokens.count t : ℝ) / (tokens.length : ℝ))⁻¹ := by
    intro t ht
    rw [Real.logb_inv]
    ring
  rw [Finset.sum_congr rfl hstep1]
  have hjensen : ∑ t ∈ tokens.toFinset,
      ((tokens.count t : ℝ) / (tokens.length : ℝ)) •
        Real.log ((tokens.count t : ℝ) / (tokens.length : ℝ))⁻¹
      ≤ Real.log (∑ t ∈ tokens.toFinset,
        ((tokens.count t : ℝ) / (tokens.length : ℝ)) •
          ((tokens.count t : ℝ) / (tokens.length : ℝ))⁻¹) := by
    apply (strictConcaveOn_log_Ioi.concaveOn).le_map_sum
    · exact fun t ht => le_of_lt (hppos t ht)
    · exact hpsum
    · intro t ht
      exact Set.mem_Ioi.mpr (inv_pos.mpr (hppos t ht))
  simp only [smul_eq_mul] at hjensen
  have hsum_inv : ∑ t ∈ tokens.toFinset,
      ((tokens.count t : ℝ) / (tokens.length : ℝ)) *
        ((tokens.count t : ℝ) / (tokens.length : ℝ))⁻¹
      = (tokens.toFinset.card : ℝ) := by
    have hone : ∀ t ∈ tokens.toFinset,
        ((tokens.count t : ℝ) / (tokens.length : ℝ)) *
          ((tokens.count t : ℝ) / (tokens.length : ℝ))⁻¹ = 1 :=
      fun t ht => mul_inv_cancel₀ (ne_of_gt (hppos t ht))
    rw [Finset.sum_congr rfl hone, Finset.sum_const, nsmul_eq_mul, mul_one]
  rw [hsum_inv] at hjensen
  have hlog2 : 0 < Real.log 2 := Real.log_pos one_lt_two
  have hterm : ∀ t ∈ tokens.toFinset,
      ((tokens.count t : ℝ) / (tokens.length : ℝ)) *
        Real.logb 2 ((tokens.count t : ℝ) / (tokens.length : ℝ))⁻¹
      = (((tokens.count t : ℝ) / (tokens.length : ℝ)) *
          Real.log ((tokens.count t : ℝ) / (tokens.length : ℝ))⁻¹) / Real.log 2 := by
    intro t ht
    rw [← Real.log_div_log]
    ring
  rw [Finset.sum_congr rfl hterm, ← Finset.sum_div, ← Real.log_div_log]
  exact (div_le_div_iff_of_pos_right hlog2).mpr hjensen

/-- C7: whenever the vocabulary size V exceeds 1, `normalized_entropy` equals
H / log2 V and lies inside [0, 1]; whenever V ≤ 1 (the empty sequence included) it
returns 0.0. -/
theorem normalized_entropy_bounds (tokens : List String) :
    (1 < tokens.toFinset.card →
      normalized_entropy tokens =
        shannon_entropy tokens / Real.logb 2 (tokens.toFinset.card : ℝ) ∧
      0 ≤ normalized_entropy tokens ∧ normalized_entropy tokens ≤ 1) ∧
    (tokens.toFinset.card ≤ 1 → normalized_entropy tokens = 0) := by
  constructor
  · intro hV
    have hne : tokens ≠ [] := by
      intro heq
      rw [heq] at hV
      simp at hV
    have hVle : ¬ tokens.toFinset.card ≤ 1 := not_le.mpr hV
    have heq : normalized_entropy tokens =
        shannon_entropy tokens / Real.logb 2 (tokens.toFinset.card : ℝ) := by
      unfold normalized_entropy
      rw [if_neg hne, if_neg hVle]
    have hlogpos : 0 < Real.logb 2 (tokens.toFinset.card : ℝ) :=
      Real.logb_pos one_lt_two (by exact_mod_cast hV)
    refine ⟨heq, ?_, ?_⟩
    · rw [heq]
      exact div_nonneg (shannon_entropy_nonneg tokens) (le_of_lt hlogpos)
    · rw [heq]
      exact (div_le_one hlogpos).mpr (entropy_le_logb_card tokens hV)
  · intro hV
    unfold normalized_entropy
    by_cases hne : tokens = []
    · rw [if_pos hne]
    · rw [if_neg hne, if_pos hV]

/-- Witness for C7 at the concrete inputs ["a","b"] (V = 2) and ["a"] (V = 1). -/
theorem normalized_entropy_bounds_witness :
    (0 ≤ normalized_entropy ["a", "b"] ∧ normalized_entropy ["a", "b"] ≤ 1) ∧
    normalized_entropy ["a"] = 0 :=
  ⟨⟨((normalized_entropy_bounds ["a", "b"]).1 (by decide)).2.1,
    ((normalized_entropy_bounds ["a", "b"]).1 (by decide)).2.2⟩,
   (normalized_entropy_bounds ["a"]).2 (by decide)⟩

/-! ### Claim C8 -/

/-- C8: for a non-empty document collection, every term's document frequency is at
most the number of documents, the smoothed idf `ln(n/(df+1)) + 1` is strictly
positive, each matrix entry is `tf·idf` by construction, and every row's normalizing
denominator (L2 norm plus 1e-8) is strictly positive, so the division never hits
zero — even for an all-zero row. -/
theorem tfidf_idf_positive (docs : List (List String)) (hdocs : docs ≠ []) :
    (∀ t : String, doc_freq docs t ≤ docs.length ∧ 0 < idf docs t) ∧
    (∀ (d : List String) (t : String),
      tfidf_entry docs d t = (d.count t : ℝ) * idf docs t) ∧
    (∀ d : List String, 0 < tfidf_row_norm docs d + 1 / 10 ^ 8) := by
  have hn : 1 ≤ docs.length := List.length_pos.mpr hdocs
  have hnR : (1 : ℝ) ≤ (docs.length : ℝ) := by exact_mod_cast hn
  refine ⟨?_, fun d t => rfl, ?_⟩
  · intro t
    have hdf : doc_freq docs t ≤ docs.length := List.length_filter_le _ _
    refine ⟨hdf, ?_⟩
    have hdfR : (doc_freq docs t : ℝ) ≤ (docs.length : ℝ) := by exact_mod_cast hdf
    have hxpos : 0 < (docs.length : ℝ) / ((doc_freq docs t : ℝ) + 1) := by
      apply div_pos (by linarith)
      positivity
    have hge : (docs.length : ℝ) / ((docs.length : ℝ) + 1) ≤
        (docs.length : ℝ) / ((doc_freq docs t : ℝ) + 1) :=
      div_le_div_of_nonneg_left (by linarith) (by positivity) (by linarith)
    have hhalf : (1 : ℝ) / 2 ≤ (docs.length : ℝ) / ((docs.length : ℝ) + 1) := by
      rw [div_le_div_iff (by norm_num) (by linarith)]
      linarith
    have hexp : Real.exp (-1) < (docs.length : ℝ) / ((doc_freq docs t : ℝ) + 1) := by
      have h2 : (2 : ℝ) < Real.exp 1 := by
        have := Real.exp_one_gt_d9
        linarith
      have hinv : (Real.exp 1)⁻¹ < (2 : ℝ)⁻¹ := inv_strictAnti₀ (by norm_num) h2
      rw [Real.exp_neg]
      calc (Real.exp 1)⁻¹ < (2 : ℝ)⁻¹ := hinv
        _ = 1 / 2 := by norm_num
        _ ≤ (docs.length : ℝ) / ((docs.length : ℝ) + 1) := hhalf
        _ ≤ (docs.length : ℝ) / ((doc_freq docs t : ℝ) + 1) := hge
    have hlog : -1 < Real.log ((docs.length : ℝ) / ((doc_freq docs t : ℝ) + 1)) :=
      (Real.lt_log_iff_exp_lt hxpos).mpr hexp
    unfold idf
    linarith
  · intro d
    have hsq := Real.sqrt_nonneg (∑ t ∈ tfidf_vocab docs, (tfidf_entry docs d t) ^ 2)
    unfold tfidf_row_norm
    positivity

/-- Witness for C8 on the one-document collection [["a"]]. -/
theorem tfidf_idf_positive_witness :
    doc_freq [["a"]] "a" ≤ ([["a"]] : List (List String)).length ∧
    0 < idf [["a"]] "a" ∧
    0 < tfidf_row_norm [["a"]] ["a"] + 1 / 10 ^ 8 :=
  ⟨((tfidf_idf_positive [["a"]] (by decide)).1 "a").1,
   ((tfidf_idf_positive [["a"]] (by decide)).1 "a").2,
   (tfidf_idf_positive [["a"]] (by decide)).2.2 ["a"]⟩

/-- Witness for C4 at concrete corpora: symmetry and unit diagonal on a 2×2 matrix. -/
theorem jaccard_pairwise_symmetric_witness :
    jaccard_similarity ["a"] ["b"] = jaccard_similarity ["b"] ["a"] ∧
    compute_pairwise_similarity (fun _ : Fin 2 => ["a"]) 0 1 =
      compute_pairwise_similarity (fun _ : Fin 2 => ["a"]) 1 0 ∧
    compute_pairwise_similarity (fun _ : Fin 2 => ["a"]) 0 0 = 1 :=
  ⟨jaccard_pairwise_symmetric.1 ["a"] ["b"],
   (jaccard_pairwise_symmetric.2 2 (fun _ => ["a"]) 0 1).1,
   (jaccard_pairwise_symmetric.2 2 (fun _ => ["a"]) 0 0).2⟩

/-- Witness for C6 at the concrete input ["a"]: entropy non-negative and zero on a
single-token sequence. -/
theorem shannon_entropy_nonneg_zero_iff_witness :
    0 ≤ shannon_entropy ["a"] ∧ shannon_entropy ["a"] = 0 :=
  ⟨(shannon_entropy_nonneg_zero_iff ["a"]).1,
   (shannon_entropy_nonneg_zero_iff ["a"]).2.mpr (Or.inr (by decide))⟩
